import Mathlib

/-!
Verification development for the torch-recipies repository.

The repository defines five custom autograd ops (`MyReLU`, `MatrixSum`, `MySub`,
`NonDiffCrossEntropy` in `Custom_autograd.ipynb`, and `CustomLoss` in the unnamed
notebook).  Tensors are embedded as a row-major flat list of entries together with
a shape; elementwise binary tensor operations implement the numpy/torch
broadcasting rule.  Exact values are used: rationals where the claims are
decidable, reals (with the real logarithm) for the derivative claims.  In-place
mutation (`grad_input[inputs < 0] = 0`) is modelled with an explicit store of
tensors.
-/

/-- Tensor: an n-dimensional array, stored as a row-major flat list of entries
together with its shape. -/
structure Tensor (α : Type) where
  shape : List Nat
  data : List α
deriving DecidableEq

/-- wf t states the internal consistency of the flat representation: the data
length is the product of the shape. -/
def Tensor.wf {α : Type} (t : Tensor α) : Prop := t.data.length = t.shape.prod

instance {α : Type} [DecidableEq α] (t : Tensor α) : Decidable t.wf :=
  inferInstanceAs (Decidable (t.data.length = t.shape.prod))

/-- dim0 t is t.shape[0], the leading dimension used as `N` by the cross-entropy ops. -/
def dim0 {α : Type} (t : Tensor α) : Nat := t.shape.headD 0

/-- clone returns a fresh tensor with the same shape and entries (torch `.clone()`). -/
def Tensor.clone {α : Type} (t : Tensor α) : Tensor α := ⟨t.shape, t.data⟩

/-- tmap applies an operation to every entry of a tensor. -/
def tmap {α : Type} (f : α → α) (t : Tensor α) : Tensor α := ⟨t.shape, t.data.map f⟩

/-- scalarT c is the 0-dimensional tensor holding the single value c (the form a
torch scalar such as a summed loss, or its upstream gradient, takes). -/
def scalarT {α : Type} (c : α) : Tensor α := ⟨[], [c]⟩

/-- onesLike mirrors `torch.ones_like`: the all-ones tensor of the argument's shape. -/
def onesLike {α : Type} [One α] (t : Tensor α) : Tensor α :=
  ⟨t.shape, List.replicate t.shape.prod 1⟩

/-- tneg negates a tensor entrywise (the unary `-` on tensors). -/
def tneg {α : Type} [Neg α] (t : Tensor α) : Tensor α := tmap Neg.neg t

/-- smulR multiplies every entry of a tensor by a python scalar on the right
(`tensor * c`). -/
def smulR {α : Type} [Mul α] (t : Tensor α) (c : α) : Tensor α := tmap (fun x => x * c) t

/-- smulL multiplies every entry of a tensor by a python scalar on the left
(`c * tensor`). -/
def smulL {α : Type} [Mul α] (c : α) (t : Tensor α) : Tensor α := tmap (fun x => c * x) t

/-- sdivN divides every entry of a tensor by a natural-number scalar (`tensor / N`). -/
def sdivN {α : Type} [DivisionRing α] (t : Tensor α) (n : Nat) : Tensor α :=
  tmap (fun x => x / (n : α)) t

/-- padShape pads a shape on the left with ones up to rank r (numpy broadcasting
aligns shapes at their trailing dimensions). -/
def padShape (r : Nat) (s : List Nat) : List Nat := List.replicate (r - s.length) 1 ++ s

/-- bcastDims combines two equal-rank shapes dimension by dimension following the
numpy broadcasting rule: the sizes must agree or one of them must be 1. -/
def bcastDims : List Nat → List Nat → Option (List Nat)
  | [], [] => some []
  | a :: as, b :: bs =>
    match bcastDims as bs with
    | none => none
    | some rest =>
      if a = b then some (a :: rest)
      else if a = 1 then some (b :: rest)
      else if b = 1 then some (a :: rest)
      else none
  | _, _ => none

/-- broadcastShape gives the common broadcast shape of two shapes, when they are
compatible. -/
def broadcastShape (s t : List Nat) : Option (List Nat) :=
  bcastDims (padShape (max s.length t.length) s) (padShape (max s.length t.length) t)

/-- flatOfIdx linearises a multi-index with row-major strides. -/
def flatOfIdx : List Nat → List Nat → Nat
  | _ :: ds, i :: is => i * ds.prod + flatOfIdx ds is
  | _, _ => 0

/-- idxOfFlat recovers the multi-index of a row-major flat position. -/
def idxOfFlat : List Nat → Nat → List Nat
  | [], _ => []
  | _ :: ds, k => k / ds.prod :: idxOfFlat ds (k % ds.prod)

/-- readBC reads the entry of a (left-padded) operand that broadcasting places at a
given multi-index of the result: size-1 dimensions are pinned to index 0. -/
def readBC {α : Type} [Zero α] (s : List Nat) (data : List α) (idx : List Nat) : α :=
  data.getD (flatOfIdx s (List.zipWith (fun d i => if d = 1 then 0 else i) s idx)) 0

/-- ebin is an elementwise binary tensor operation with numpy/torch broadcasting;
it returns none when the shapes are incompatible. -/
def ebin {α : Type} [Zero α] (f : α → α → α) (x y : Tensor α) : Option (Tensor α) :=
  match broadcastShape x.shape y.shape with
  | none => none
  | some sh =>
    some ⟨sh, (List.range sh.prod).map (fun k =>
      f (readBC (padShape sh.length x.shape) x.data (idxOfFlat sh k))
        (readBC (padShape sh.length y.shape) y.data (idxOfFlat sh k)))⟩

/-- reluScalar is the entrywise computation of MyReLU.forward:
`inputs.clamp(min=0)` takes the max of each entry with 0. -/
def reluScalar {α : Type} [LinearOrder α] [Zero α] (x : α) : α := max x 0

/-- MyReLU.forward returns `inputs.clamp(min=0)`. -/
def MyReLU_forward {α : Type} [LinearOrder α] [Zero α] (inputs : Tensor α) : Tensor α :=
  tmap reluScalar inputs

/-- reluBwdScalar is the entrywise effect of MyReLU.backward: the cloned upstream
gradient entry, zeroed where the saved input is negative. -/
def reluBwdScalar {α : Type} [LinearOrder α] [Zero α] (x g : α) : α :=
  if x < 0 then 0 else g

/-- setWhereNeg inputs t performs `t[inputs < 0] = 0`: it zeroes the entries of t at
the positions where inputs is negative (same-shape boolean mask indexing). -/
def setWhereNeg {α : Type} [LinearOrder α] [Zero α] (inputs t : Tensor α) : Tensor α :=
  ⟨t.shape, List.zipWith reluBwdScalar inputs.data t.data⟩

/-- MyReLU.backward clones grad_output and zeroes the entries at negative saved
inputs: `grad_input = grad_output.clone(); grad_input[inputs < 0] = 0`. -/
def MyReLU_backward {α : Type} [LinearOrder α] [Zero α] (inputs grad_output : Tensor α) :
    Tensor α :=
  setWhereNeg inputs grad_output.clone

/-- msumCore sums all entries of the flat data (torch `.sum()`). -/
def msumCore {α : Type} [AddCommMonoid α] (l : List α) : α := l.sum

/-- MatrixSum.forward returns `inputs.sum()`, a 0-dimensional tensor. -/
def MatrixSum_forward {α : Type} [AddCommMonoid α] (inputs : Tensor α) : Tensor α :=
  scalarT (msumCore inputs.data)

/-- MatrixSum.backward: `dsumdx = torch.ones_like(inputs); dinputs = grad_outputs * dsumdx`. -/
def MatrixSum_backward {α : Type} [Zero α] [One α] [Mul α] (inputs grad_outputs : Tensor α) :
    Option (Tensor α) :=
  ebin (· * ·) grad_outputs (onesLike inputs)

/-- subScalar is the entrywise computation of MySub.forward: `inp - alpha * other`. -/
def subScalar {α : Type} [Ring α] (a b alpha : α) : α := a - alpha * b

/-- MySub.forward computes `inp - alpha * other` (alpha defaults to 1); the scalar
multiple of `other` is broadcast against `inp`. -/
def MySub_forward {α : Type} [Ring α] (inp other : Tensor α) (alpha : α := 1) :
    Option (Tensor α) :=
  ebin (fun x y => x - y) inp (smulL alpha other)

/-- MySub.backward: `dinputs = grad_out * ones_like(inputs);
dother = grad_out * -alpha * ones_like(other); return dinputs, dother, None`. -/
def MySub_backward {α : Type} [Ring α] (inp other : Tensor α) (alpha : α)
    (grad_out : Tensor α) :
    Option (Option (Tensor α) × Option (Tensor α) × Option (Tensor α)) :=
  (ebin (· * ·) grad_out (onesLike inp)).bind (fun dinputs =>
    (ebin (· * ·) (smulR grad_out (-alpha)) (onesLike other)).map (fun dother =>
      (some dinputs, some dother, none)))

/-- epsClip is the clipping constant 1e-7 of the cross-entropy ops. -/
def epsClip {α : Type} [DivisionRing α] : α := 1 / 10000000

/-- clipEps clips a value to the interval [1e-7, 1 - 1e-7]
(`np.clip(x, 1e-7, 1 - 1e-7)` and `torch.clamp(x, 1e-7, 1 - 1e-7)`). -/
def clipEps {α : Type} [LinearOrderedField α] (x : α) : α :=
  min (max x epsClip) (1 - epsClip)

/-- ceBwdScalar is the entrywise value `(-y_true/y_pred) / N` that both
cross-entropy backwards compute before scaling by the upstream gradient. -/
def ceBwdScalar {α : Type} [DivisionRing α] (t p : α) (n : Nat) : α :=
  (-t / p) / (n : α)

/-- NonDiffCrossEntropy.backward: with saved (y_true, y_pred),
`dy_pred = (-y_true/y_pred)/N; return None, dy_pred * grad_output`. -/
def NonDiffCrossEntropy_backward {α : Type} [LinearOrderedField α]
    (y_true y_pred grad_output : Tensor α) :
    Option (Option (Tensor α) × Option (Tensor α)) :=
  (ebin (· / ·) (tneg y_true) y_pred).bind (fun q =>
    (ebin (· * ·) (sdivN q (dim0 y_true)) grad_output).map (fun dy =>
      (none, some dy)))

/-- CustomLoss.backward: with saved (y_pred, y_true),
`dy_pred = (-y_true/y_pred)/N; return grad_output * dy_pred, None`. -/
def CustomLoss_backward {α : Type} [LinearOrderedField α]
    (y_pred y_true grad_output : Tensor α) :
    Option (Option (Tensor α) × Option (Tensor α)) :=
  (ebin (· / ·) (tneg y_true) y_pred).bind (fun q =>
    (ebin (· * ·) grad_output (sdivN q (dim0 y_true))).map (fun dy =>
      (some dy, none)))

/-- celossCore is the loss value `sum(-y_true * log(clip(y_pred, ε, 1-ε))) / N`
computed (in the same way) by both cross-entropy forwards, over the reals. -/
noncomputable def celossCore (t p : List ℝ) (n : Nat) : ℝ :=
  (List.zipWith (fun a b => -a * Real.log (clipEps b)) t p).sum / (n : ℝ)

/-- nondiff_crossentropyloss:
`np.sum(-y_true * np.log(np.clip(y_pred, 1e-7, 1 - 1e-7))) / y_true.shape[0]`. -/
noncomputable def nondiff_crossentropyloss (y_true y_pred : Tensor ℝ) : Tensor ℝ :=
  scalarT (celossCore y_true.data y_pred.data (dim0 y_true))

/-- NonDiffCrossEntropy.forward returns `nondiff_crossentropyloss(y_true, y_pred)`. -/
noncomputable def NonDiffCrossEntropy_forward (y_true y_pred : Tensor ℝ) : Tensor ℝ :=
  nondiff_crossentropyloss y_true y_pred

/-- CustomLoss.forward:
`torch.sum(-y_true * torch.log(torch.clamp(y_pred, 1e-7, 1-1e-7))) / y_true.shape[0]`,
with argument order forward(ctx, y_pred, y_true). -/
noncomputable def CustomLoss_forward (y_pred y_true : Tensor ℝ) : Tensor ℝ :=
  scalarT (celossCore y_true.data y_pred.data (dim0 y_true))

/-- specCEGrad is modelled from the spec's words: the claimed gradient tensor
`grad_output * (-y_true / (y_pred * N))`, elementwise, shaped like y_pred; it is
compared with what the source backwards return. -/
def specCEGrad (t p : Tensor ℚ) (gv : ℚ) : Tensor ℚ :=
  ⟨p.shape, (List.range p.shape.prod).map (fun k =>
    gv * (-(t.data.getD k 0) / (p.data.getD k 0 * (dim0 t : ℚ))))⟩

/-- ceBackwardDivOk is the implicit precondition of the cross-entropy backwards:
the division `-y_true / y_pred` reads the saved, unclipped y_pred, so every entry
of y_pred must be nonzero for it to be well-defined. -/
def ceBackwardDivOk (p : Tensor ℚ) : Prop :=
  ∀ k, k < p.data.length → p.data.getD k 0 ≠ 0

/-- Heap models the store of tensors a notebook session holds; a reference is a
position in the store.  In-place tensor mutation is a write to the store. -/
abbrev Heap (α : Type) := List (Tensor α)

/-- heapRead dereferences a tensor reference. -/
def heapRead {α : Type} (h : Heap α) (r : Nat) : Tensor α := h.getD r ⟨[], []⟩

/-- heapAlloc places a freshly created tensor in the store and returns its reference. -/
def heapAlloc {α : Type} (h : Heap α) (t : Tensor α) : Heap α × Nat :=
  (h ++ [t], h.length)

/-- heapWrite overwrites the tensor behind a reference (an in-place mutation). -/
def heapWrite {α : Type} (h : Heap α) (r : Nat) (t : Tensor α) : Heap α := h.set r t

/-- reluBackwardStep runs MyReLU.backward against the store: it clones grad_output
into a fresh cell and then mutates, in place on that clone only, the entries at
negative saved inputs (`grad_input = grad_output.clone(); grad_input[inputs < 0] = 0`). -/
def reluBackwardStep {α : Type} [LinearOrder α] [Zero α] (h : Heap α)
    (inputsRef gradRef : Nat) : Heap α × Nat :=
  let a := heapAlloc h (heapRead h gradRef).clone
  (heapWrite a.1 a.2 (setWhereNeg (heapRead a.1 inputsRef) (heapRead a.1 a.2)), a.2)

/-- matrixSumBackwardStep runs MatrixSum.backward against the store: it allocates
`dsumdx = ones_like(inputs)` and `dinputs = grad_outputs * dsumdx`, writing nothing
that already exists. -/
def matrixSumBackwardStep {α : Type} [Zero α] [One α] [Mul α] (h : Heap α)
    (inputsRef gradRef : Nat) : Heap α × Nat :=
  let a := heapAlloc h (onesLike (heapRead h inputsRef))
  let b := heapAlloc a.1 ((ebin (· * ·) (heapRead a.1 gradRef) (heapRead a.1 a.2)).getD ⟨[], []⟩)
  (b.1, b.2)

/-- celossForwardStep runs CustomLoss.forward against the store: `torch.clamp`
allocates a fresh clipped tensor, the loss is a fresh scalar, and no existing
tensor (in particular not the caller's y_pred) is written. -/
noncomputable def celossForwardStep (h : Heap ℝ) (predRef trueRef : Nat) :
    Heap ℝ × Nat :=
  let c := heapAlloc h (tmap clipEps (heapRead h predRef))
  let l := heapAlloc c.1 (scalarT
    ((List.zipWith (fun a b => -a * Real.log b)
        (heapRead c.1 trueRef).data (heapRead c.1 c.2).data).sum /
      (dim0 (heapRead c.1 trueRef) : ℝ)))
  (l.1, l.2)

/-- arity_MyReLU: MyReLU.forward(ctx, inputs) accepts one input argument. -/
def arity_MyReLU : Nat := 1

/-- arity_MatrixSum: MatrixSum.forward(ctx, inputs) accepts one input argument. -/
def arity_MatrixSum : Nat := 1

/-- arity_MySub: MySub.forward(inp, other, alpha) accepts three input arguments. -/
def arity_MySub : Nat := 3

/-- arity_NonDiffCrossEntropy: forward(ctx, y_true, y_pred) accepts two input
arguments. -/
def arity_NonDiffCrossEntropy : Nat := 2

/-- arity_CustomLoss: forward(ctx, y_pred, y_true) accepts two input arguments. -/
def arity_CustomLoss : Nat := 2

/-- gradSlots_MyReLU lists the values MyReLU.backward returns, one per forward
input slot. -/
def gradSlots_MyReLU (inputs g : Tensor ℚ) : List (Option (Tensor ℚ)) :=
  [some (MyReLU_backward inputs g)]

/-- gradSlots_MatrixSum lists the values MatrixSum.backward returns, one per
forward input slot. -/
def gradSlots_MatrixSum (inputs g : Tensor ℚ) : Option (List (Option (Tensor ℚ))) :=
  (MatrixSum_backward inputs g).map (fun d => [some d])

/-- gradSlots_MySub lists the values MySub.backward returns, one per forward
input slot (inp, other, alpha). -/
def gradSlots_MySub (inp other : Tensor ℚ) (alpha : ℚ) (g : Tensor ℚ) :
    Option (List (Option (Tensor ℚ))) :=
  (MySub_backward inp other alpha g).map (fun z => [z.1, z.2.1, z.2.2])

/-- gradSlots_NonDiffCrossEntropy lists the values backward returns, one per
forward input slot (y_true, y_pred). -/
def gradSlots_NonDiffCrossEntropy (t p g : Tensor ℚ) :
    Option (List (Option (Tensor ℚ))) :=
  (NonDiffCrossEntropy_backward t p g).map (fun z => [z.1, z.2])

/-- gradSlots_CustomLoss lists the values backward returns, one per forward input
slot (y_pred, y_true). -/
def gradSlots_CustomLoss (p t g : Tensor ℚ) : Option (List (Option (Tensor ℚ))) :=
  (CustomLoss_backward p t g).map (fun z => [z.1, z.2])

lemma bcastDims_self (s : List Nat) : bcastDims s s = some s := by
  induction s with
  | nil => rfl
  | cons a as ih => simp [bcastDims, ih]

lemma bcastDims_ones_right (s : List Nat) :
    bcastDims s (List.replicate s.length 1) = some s := by
  induction s with
  | nil => rfl
  | cons a as ih =>
    simp only [List.length_cons, List.replicate_succ, bcastDims, ih]
    by_cases ha : a = 1 <;> simp [ha]

lemma bcastDims_ones_left (s : List Nat) :
    bcastDims (List.replicate s.length 1) s = some s := by
  induction s with
  | nil => rfl
  | cons a as ih =>
    simp only [List.length_cons, List.replicate_succ, bcastDims, ih]
    by_cases ha : a = 1 <;> simp [ha]

lemma padShape_self (s : List Nat) : padShape s.length s = s := by
  simp [padShape]

lemma broadcastShape_self (s : List Nat) : broadcastShape s s = some s := by
  simp [broadcastShape, padShape_self, bcastDims_self]

lemma flatOfIdx_collapse (s : List Nat) :
    ∀ k, k < s.prod →
      flatOfIdx s (List.zipWith (fun d i => if d = 1 then 0 else i) s (idxOfFlat s k)) = k := by
  induction s with
  | nil =>
    intro k hk
    simp only [List.prod_nil, Nat.lt_one_iff] at hk
    simp [hk, idxOfFlat, flatOfIdx]
  | cons d ds ih =>
    intro k hk
    simp only [List.prod_cons] at hk
    have hP : 0 < ds.prod := by
      rcases Nat.eq_zero_or_pos ds.prod with h0 | h0
      · rw [h0, Nat.mul_zero] at hk; omega
      · exact h0
    have hmod : k % ds.prod < ds.prod := Nat.mod_lt _ hP
    simp only [idxOfFlat, List.zipWith_cons_cons, flatOfIdx]
    rw [ih _ hmod]
    by_cases hd : d = 1
    · have hk' : k < ds.prod := by rw [hd, Nat.one_mul] at hk; exact hk
      rw [if_pos hd, Nat.zero_mul, Nat.zero_add, Nat.mod_eq_of_lt hk']
    · rw [if_neg hd, Nat.mul_comm (k / ds.prod) ds.prod]
      exact Nat.div_add_mod k ds.prod

lemma readBC_self {α : Type} [Zero α] (s : List Nat) (data : List α) (k : Nat)
    (hk : k < s.prod) : readBC s data (idxOfFlat s k) = data.getD k 0 := by
  unfold readBC
  rw [flatOfIdx_collapse s k hk]

lemma flatOfIdx_ones (n : Nat) (idx : List Nat) :
    flatOfIdx (List.replicate n 1)
      (List.zipWith (fun d i => if d = 1 then 0 else i) (List.replicate n 1) idx) = 0 := by
  induction n generalizing idx with
  | zero => rfl
  | succ m ih =>
    cases idx with
    | nil => rfl
    | cons i is =>
      simp only [List.replicate_succ, List.zipWith_cons_cons, flatOfIdx]
      rw [ih is]
      simp

lemma readBC_scalar {α : Type} [Zero α] (n : Nat) (data : List α) (idx : List Nat) :
    readBC (List.replicate n 1) data idx = data.getD 0 0 := by
  unfold readBC
  rw [flatOfIdx_ones]

lemma getD_map_range {α : Type} [Zero α] (g : Nat → α) (n k : Nat) (hk : k < n) :
    ((List.range n).map g).getD k 0 = g k := by
  simp [List.getD_eq_getElem?_getD, List.getElem?_range hk]

lemma ebin_same {α : Type} [Zero α] (f : α → α → α) (x y : Tensor α)
    (h : x.shape = y.shape) :
    ebin f x y = some ⟨x.shape, (List.range x.shape.prod).map (fun k =>
      f (x.data.getD k 0) (y.data.getD k 0))⟩ := by
  unfold ebin broadcastShape
  rw [← h, Nat.max_self, padShape_self, bcastDims_self]
  simp only
  congr 1
  refine congrArg (Tensor.mk x.shape) ?_
  refine List.map_congr_left ?_
  intro k hk
  rw [List.mem_range] at hk
  rw [padShape_self, readBC_self _ _ _ hk, readBC_self _ _ _ hk]

lemma ebin_scalarR {α : Type} [Zero α] (f : α → α → α) (x : Tensor α) (c : α) :
    ebin f x (scalarT c) = some ⟨x.shape, (List.range x.shape.prod).map (fun k =>
      f (x.data.getD k 0) c)⟩ := by
  unfold ebin broadcastShape
  simp only [scalarT, List.length_nil, Nat.max_zero, padShape_self]
  have hpad : padShape x.shape.length [] = List.replicate x.shape.length 1 := by
    simp [padShape]
  rw [hpad, bcastDims_ones_right]
  simp only
  congr 1
  refine congrArg (Tensor.mk x.shape) ?_
  refine List.map_congr_left ?_
  intro k hk
  rw [List.mem_range] at hk
  rw [padShape_self, hpad, readBC_self _ _ _ hk, readBC_scalar]
  rfl

lemma getD_map_zero {α : Type} [Zero α] (f : α → α) (hf : f 0 = 0) (l : List α)
    (k : Nat) : (l.map f).getD k 0 = f (l.getD k 0) := by
  rcases lt_or_ge k l.length with hk | hk
  · simp [List.getD_eq_getElem?_getD, List.getElem?_map, List.getElem?_eq_getElem hk]
  · have h1 : (l.map f)[k]? = none := by
      rw [List.getElem?_eq_none_iff]
      simpa using hk
    have h2 : l[k]? = none := List.getElem?_eq_none hk
    simp [List.getD_eq_getElem?_getD, h1, h2, hf]

lemma ebin_scalarL {α : Type} [Zero α] (f : α → α → α) (c : α) (y : Tensor α) :
    ebin f (scalarT c) y = some ⟨y.shape, (List.range y.shape.prod).map (fun k =>
      f c (y.data.getD k 0))⟩ := by
  unfold ebin broadcastShape
  simp only [scalarT, List.length_nil, Nat.zero_max, padShape_self]
  have hpad : padShape y.shape.length [] = List.replicate y.shape.length 1 := by
    simp [padShape]
  rw [hpad, bcastDims_ones_left]
  simp only
  congr 1
  refine congrArg (Tensor.mk y.shape) ?_
  refine List.map_congr_left ?_
  intro k hk
  rw [List.mem_range] at hk
  rw [padShape_self, hpad, readBC_self _ _ _ hk, readBC_scalar]
  rfl

lemma ce_ratio_eq (t p : Tensor ℚ) (h : t.shape = p.shape) :
    ebin (· / ·) (tneg t) p =
      some ⟨p.shape, (List.range p.shape.prod).map (fun k =>
        -(t.data.getD k 0) / p.data.getD k 0)⟩ := by
  have hsh : (tneg t).shape = p.shape := h
  rw [ebin_same (· / ·) (tneg t) p hsh, Option.some.injEq, Tensor.mk.injEq]
  refine ⟨hsh, ?_⟩
  rw [hsh]
  refine List.map_congr_left ?_
  intro k _
  have hd : (tneg t).data = t.data.map Neg.neg := rfl
  rw [hd, getD_map_zero Neg.neg neg_zero]

lemma ce_dy_eq (t p : Tensor ℚ) :
    sdivN (⟨p.shape, (List.range p.shape.prod).map (fun k =>
        -(t.data.getD k 0) / p.data.getD k 0)⟩ : Tensor ℚ) (dim0 t) =
      ⟨p.shape, (List.range p.shape.prod).map (fun k =>
        -(t.data.getD k 0) / p.data.getD k 0 / ((dim0 t : Nat) : ℚ))⟩ := by
  simp only [sdivN, tmap, List.map_map]
  rfl

lemma ce_mulR_eq (t p : Tensor ℚ) (gv : ℚ) :
    ebin (· * ·)
      (⟨p.shape, (List.range p.shape.prod).map (fun k =>
        -(t.data.getD k 0) / p.data.getD k 0 / ((dim0 t : Nat) : ℚ))⟩ : Tensor ℚ)
      (scalarT gv) = some (specCEGrad t p gv) := by
  rw [ebin_scalarR, Option.some.injEq]
  unfold specCEGrad
  rw [Tensor.mk.injEq]
  refine ⟨rfl, ?_⟩
  refine List.map_congr_left ?_
  intro k hk
  rw [List.mem_range] at hk
  rw [getD_map_range _ _ _ hk, div_div, mul_comm]

lemma ce_mulL_eq (t p : Tensor ℚ) (gv : ℚ) :
    ebin (· * ·) (scalarT gv)
      (⟨p.shape, (List.range p.shape.prod).map (fun k =>
        -(t.data.getD k 0) / p.data.getD k 0 / ((dim0 t : Nat) : ℚ))⟩ : Tensor ℚ) =
      some (specCEGrad t p gv) := by
  rw [ebin_scalarL, Option.some.injEq]
  unfold specCEGrad
  rw [Tensor.mk.injEq]
  refine ⟨rfl, ?_⟩
  refine List.map_congr_left ?_
  intro k hk
  rw [List.mem_range] at hk
  rw [getD_map_range _ _ _ hk, div_div]

lemma ce_backward_eq (t p : Tensor ℚ) (gv : ℚ) (h : t.shape = p.shape) :
    NonDiffCrossEntropy_backward t p (scalarT gv) =
        some (none, some (specCEGrad t p gv)) ∧
    CustomLoss_backward p t (scalarT gv) =
        some (some (specCEGrad t p gv), none) := by
  constructor
  · unfold NonDiffCrossEntropy_backward
    rw [ce_ratio_eq t p h, Option.some_bind, ce_dy_eq, ce_mulR_eq, Option.map_some']
  · unfold CustomLoss_backward
    rw [ce_ratio_eq t p h, Option.some_bind, ce_dy_eq, ce_mulL_eq, Option.map_some']

/-- C1: for the cross-entropy wrapper ops (NonDiffCrossEntropy and CustomLoss),
for every pair of same-shaped tensors y_true, y_pred and upstream scalar gradient,
backward returns in the y_pred slot the elementwise value
grad_output * (-y_true / (y_pred * N)) with N = y_true.shape[0], and returns the
no-gradient marker (None) in the y_true slot. -/
theorem ce_backward_eq_spec_grad (t p : Tensor ℚ) (gv : ℚ) (h : t.shape = p.shape) :
    NonDiffCrossEntropy_backward t p (scalarT gv) =
        some (none, some (specCEGrad t p gv)) ∧
    CustomLoss_backward p t (scalarT gv) =
        some (some (specCEGrad t p gv), none) :=
  ce_backward_eq t p gv h

/-- Witness for C1 at y_true = [2], y_pred = [4], grad = 3. -/
theorem ce_backward_eq_spec_grad_witness :
    NonDiffCrossEntropy_backward (⟨[1], [2]⟩ : Tensor ℚ) ⟨[1], [4]⟩ (scalarT 3) =
        some (none, some (specCEGrad ⟨[1], [2]⟩ ⟨[1], [4]⟩ 3)) ∧
    CustomLoss_backward (⟨[1], [4]⟩ : Tensor ℚ) ⟨[1], [2]⟩ (scalarT 3) =
        some (some (specCEGrad ⟨[1], [2]⟩ ⟨[1], [4]⟩ 3), none) :=
  ce_backward_eq_spec_grad ⟨[1], [2]⟩ ⟨[1], [4]⟩ 3 rfl

lemma getD_replicate_lt {α : Type} [Zero α] (c : α) (n k : Nat) (hk : k < n) :
    (List.replicate n c).getD k 0 = c := by
  simp [List.getD_eq_getElem?_getD, List.getElem?_replicate, hk]

lemma matrixsum_backward_eq (x : Tensor ℚ) (gv : ℚ) :
    MatrixSum_backward x (scalarT gv) =
      some ⟨x.shape, List.replicate x.shape.prod (gv * 1)⟩ := by
  unfold MatrixSum_backward
  rw [ebin_scalarL, Option.some.injEq, Tensor.mk.injEq]
  refine ⟨rfl, ?_⟩
  have hc : ∀ k ∈ List.range (onesLike x).shape.prod,
      gv * (onesLike x).data.getD k 0 = gv * 1 := by
    intro k hk
    rw [List.mem_range] at hk
    have hk' : k < x.shape.prod := hk
    have hd : (onesLike x).data = List.replicate x.shape.prod 1 := rfl
    rw [hd, getD_replicate_lt _ _ _ hk']
  rw [List.map_congr_left hc]
  have hl : (List.range (onesLike x).shape.prod).length = x.shape.prod := by
    simp [onesLike]
  rw [List.map_const']
  rw [hl]

lemma mysub_backward_eq (a b go : Tensor ℚ) (alpha : ℚ)
    (hag : a.shape = go.shape) (hbg : b.shape = go.shape) :
    MySub_backward a b alpha go =
      some (some ⟨go.shape, (List.range go.shape.prod).map (fun k =>
              go.data.getD k 0)⟩,
            some ⟨go.shape, (List.range go.shape.prod).map (fun k =>
              -alpha * go.data.getD k 0)⟩,
            none) := by
  unfold MySub_backward
  have hsa : go.shape = (onesLike a).shape := hag.symm
  have hsb : (smulR go (-alpha)).shape = (onesLike b).shape := hbg.symm
  rw [ebin_same _ _ _ hsa, Option.some_bind, ebin_same _ _ _ hsb, Option.map_some']
  rw [Option.some.injEq, Prod.mk.injEq, Prod.mk.injEq]
  refine ⟨?_, ?_, rfl⟩
  · rw [Option.some.injEq, Tensor.mk.injEq]
    refine ⟨rfl, ?_⟩
    refine List.map_congr_left ?_
    intro k hk
    rw [List.mem_range] at hk
    have hd : (onesLike a).data = List.replicate a.shape.prod 1 := rfl
    rw [hd, hag, getD_replicate_lt _ _ _ hk, mul_one]
  · rw [Option.some.injEq, Tensor.mk.injEq]
    have hsh : (smulR go (-alpha)).shape = go.shape := rfl
    refine ⟨hsh, ?_⟩
    rw [hsh]
    refine List.map_congr_left ?_
    intro k hk
    rw [List.mem_range] at hk
    have hd : (onesLike b).data = List.replicate b.shape.prod 1 := rfl
    have hgd : (smulR go (-alpha)).data = go.data.map (fun v => v * -alpha) := rfl
    rw [hd, hbg, getD_replicate_lt _ _ _ hk, mul_one, hgd,
      getD_map_zero (fun v => v * -alpha) (zero_mul (-alpha)), mul_comm]

/-- C6: for MatrixSum (forward computes the scalar sum of x), backward with
upstream scalar gradient 1 returns the all-ones tensor with the same shape as x,
and with a general upstream scalar gradient g it returns g times that all-ones
tensor. -/
theorem matrixsum_backward_allones (x : Tensor ℚ) (gv : ℚ) :
    MatrixSum_backward x (scalarT 1) = some (onesLike x) ∧
    MatrixSum_backward x (scalarT gv) = some (smulL gv (onesLike x)) := by
  constructor
  · rw [matrixsum_backward_eq, Option.some.injEq]
    unfold onesLike
    rw [Tensor.mk.injEq]
    exact ⟨rfl, by rw [one_mul]⟩
  · rw [matrixsum_backward_eq, Option.some.injEq]
    unfold smulL tmap onesLike
    rw [Tensor.mk.injEq]
    refine ⟨rfl, ?_⟩
    rw [List.map_replicate]

/-- C5 counterexample: the claim quantifies over every pair of tensors a, b, but
with a of shape [3] and b of shape [1] (accepted by forward via broadcasting),
MySub.backward returns a b-slot gradient of shape [3], which is not
grad_out * (-alpha) * ones broadcast to b's shape [1]. -/
theorem mysub_backward_bslot_counterexample :
    (MySub_forward (⟨[3], [0, 0, 0]⟩ : Tensor ℚ) ⟨[1], [2]⟩ 2).map Tensor.shape =
      some [3] ∧
    (MySub_backward (⟨[3], [0, 0, 0]⟩ : Tensor ℚ) ⟨[1], [2]⟩ 2 ⟨[3], [1, 1, 1]⟩).map
        (fun z => z.2.1.map Tensor.shape) = some (some [3]) ∧
    ¬ (([3] : List Nat) = (⟨[1], [2]⟩ : Tensor ℚ).shape) :=
  ⟨by decide, by decide, by decide⟩

/-- C5 amended: for a, b, grad_out of one common shape, MySub.backward returns
grad_out times all-ones (elementwise grad_out) for a, grad_out * (-alpha) * ones
(elementwise -alpha * grad_out, shaped like b) for b, and the no-gradient marker
(None) for alpha. -/
theorem mysub_backward_values (a b go : Tensor ℚ) (alpha : ℚ)
    (hag : a.shape = go.shape) (hbg : b.shape = go.shape) :
    MySub_backward a b alpha go =
      some (some ⟨a.shape, (List.range a.shape.prod).map (fun k =>
              go.data.getD k 0)⟩,
            some ⟨b.shape, (List.range b.shape.prod).map (fun k =>
              -alpha * go.data.getD k 0)⟩,
            none) := by
  rw [hag, hbg]
  exact mysub_backward_eq a b go alpha hag hbg

/-- Witness for the amended C5 at a = [1,2], b = [3,4], alpha = 7, grad_out = [5,6]. -/
theorem mysub_backward_values_witness :
    MySub_backward (⟨[2], [1, 2]⟩ : Tensor ℚ) ⟨[2], [3, 4]⟩ 7 ⟨[2], [5, 6]⟩ =
      some (some ⟨[2], [5, 6]⟩, some ⟨[2], [-35, -42]⟩, none) := by
  have h := mysub_backward_values ⟨[2], [1, 2]⟩ ⟨[2], [3, 4]⟩ ⟨[2], [5, 6]⟩ 7 rfl rfl
  rw [h]
  norm_num [show List.range 2 = [0, 1] from rfl]

/-- C4 counterexample: MySub.forward accepts a of shape [2] with b of shape [1]
by broadcasting, but backward then returns a b-slot gradient of shape [2], not of
b's shape [1]: the gradient for input slot b does not have the shape of input b. -/
theorem backward_shape_counterexample :
    (MySub_forward (⟨[2], [1, 2]⟩ : Tensor ℚ) ⟨[1], [5]⟩).map Tensor.shape =
      some [2] ∧
    (MySub_backward (⟨[2], [1, 2]⟩ : Tensor ℚ) ⟨[1], [5]⟩ 1 ⟨[2], [1, 1]⟩).map
        (fun z => z.2.1.map Tensor.shape) = some (some [2]) ∧
    ¬ (([2] : List Nat) = (⟨[1], [5]⟩ : Tensor ℚ).shape) :=
  ⟨by decide, by decide, by decide⟩

/-- C4 amended: when no broadcasting is involved (the saved inputs and grad_out
share one shape; y_true and y_pred same-shaped; upstream gradients of the scalar
ops 0-dimensional), every non-None gradient returned by the ops' backwards has
exactly the shape of the corresponding input. -/
theorem backward_shapes_same_shape (i g a b go t p : Tensor ℚ) (alpha gv : ℚ)
    (hig : g.shape = i.shape) (hag : a.shape = go.shape) (hbg : b.shape = go.shape)
    (htp : t.shape = p.shape) :
    (MyReLU_backward i g).shape = i.shape ∧
    (∀ d, MatrixSum_backward i (scalarT gv) = some d → d.shape = i.shape) ∧
    (∀ da db z, MySub_backward a b alpha go = some (some da, some db, z) →
      da.shape = a.shape ∧ db.shape = b.shape) ∧
    (∀ dy, NonDiffCrossEntropy_backward t p (scalarT gv) = some (none, some dy) →
      dy.shape = p.shape) ∧
    (∀ dy, CustomLoss_backward p t (scalarT gv) = some (some dy, none) →
      dy.shape = p.shape) := by
  refine ⟨hig, ?_, ?_, ?_, ?_⟩
  · intro d hd
    rw [matrixsum_backward_eq, Option.some.injEq] at hd
    rw [← hd]
  · intro da db z h
    rw [mysub_backward_eq a b go alpha hag hbg, Option.some.injEq,
      Prod.mk.injEq, Prod.mk.injEq] at h
    obtain ⟨h1, h2, -⟩ := h
    rw [Option.some.injEq] at h1 h2
    constructor
    · rw [← h1]
      exact hag.symm
    · rw [← h2]
      exact hbg.symm
  · intro dy h
    rw [(ce_backward_eq t p gv htp).1, Option.some.injEq, Prod.mk.injEq] at h
    obtain ⟨-, h2⟩ := h
    rw [Option.some.injEq] at h2
    rw [← h2]
    rfl
  · intro dy h
    rw [(ce_backward_eq t p gv htp).2, Option.some.injEq, Prod.mk.injEq] at h
    obtain ⟨h2, -⟩ := h
    rw [Option.some.injEq] at h2
    rw [← h2]
    rfl

/-- Witness for the amended C4 at 1-element tensors. -/
theorem backward_shapes_same_shape_witness :
    (MyReLU_backward (⟨[1], [1]⟩ : Tensor ℚ) ⟨[1], [2]⟩).shape = ([1] : List Nat) := by
  have h := backward_shapes_same_shape ⟨[1], [1]⟩ ⟨[1], [2]⟩ ⟨[1], [1]⟩ ⟨[1], [1]⟩
    ⟨[1], [1]⟩ ⟨[1], [1]⟩ ⟨[1], [1]⟩ 1 1 rfl rfl rfl rfl
  exact h.1

lemma smulL_one (b : Tensor ℚ) : smulL 1 b = b := by
  unfold smulL tmap
  have hm : b.data.map (fun x => (1 : ℚ) * x) = b.data.map id := by
    refine List.map_congr_left ?_
    intro v _
    rw [one_mul]
    rfl
  rw [hm, List.map_id]

/-- C10: MySub's alpha parameter defaults to 1, so forward called with only two
arguments computes exactly a - b elementwise, and the resulting backward gradient
for b is -grad_out times ones. -/
theorem mysub_default_alpha (a b go : Tensor ℚ)
    (hag : a.shape = go.shape) (hbg : b.shape = go.shape) :
    MySub_forward a b = ebin (fun x y => x - y) a b ∧
    MySub_backward a b 1 go =
      some (some ⟨a.shape, (List.range a.shape.prod).map (fun k =>
              go.data.getD k 0)⟩,
            some ⟨b.shape, (List.range b.shape.prod).map (fun k =>
              -(go.data.getD k 0))⟩,
            none) := by
  constructor
  · unfold MySub_forward
    rw [smulL_one]
  · rw [hag, hbg, mysub_backward_eq a b go 1 hag hbg]
    rw [Option.some.injEq, Prod.mk.injEq, Prod.mk.injEq]
    refine ⟨rfl, ?_, rfl⟩
    rw [Option.some.injEq, Tensor.mk.injEq]
    refine ⟨rfl, ?_⟩
    refine List.map_congr_left ?_
    intro k _
    rw [neg_one_mul]

/-- Witness for C10 at a = [1,2], b = [3,4], grad_out = [5,6]. -/
theorem mysub_default_alpha_witness :
    MySub_forward (⟨[2], [1, 2]⟩ : Tensor ℚ) ⟨[2], [3, 4]⟩ =
      ebin (fun x y => x - y) (⟨[2], [1, 2]⟩ : Tensor ℚ) ⟨[2], [3, 4]⟩ ∧
    MySub_backward (⟨[2], [1, 2]⟩ : Tensor ℚ) ⟨[2], [3, 4]⟩ 1 ⟨[2], [5, 6]⟩ =
      some (some ⟨[2], [5, 6]⟩, some ⟨[2], [-5, -6]⟩, none) := by
  have h := mysub_default_alpha ⟨[2], [1, 2]⟩ ⟨[2], [3, 4]⟩ ⟨[2], [5, 6]⟩ rfl rfl
  refine ⟨h.1, ?_⟩
  rw [h.2]
  norm_num [show List.range 2 = [0, 1] from rfl]

/-- C3: the number of values returned by each backward equals the number of input
arguments accepted by its forward, positionally aligned, with None in exactly the
slots of inputs that do not require a gradient: MyReLU 1 value for 1 input (no
None), MatrixSum 1 for 1 (no None), MySub 3 for 3 with None exactly in the alpha
slot, NonDiffCrossEntropy 2 for 2 with None exactly in the y_true (first) slot,
CustomLoss 2 for 2 with None exactly in the y_true (second) slot. -/
theorem backward_arity_and_none_slots (i g a b go t p : Tensor ℚ) (alpha gv : ℚ)
    (hag : a.shape = go.shape) (hbg : b.shape = go.shape) (htp : t.shape = p.shape) :
    ((gradSlots_MyReLU i g).length = arity_MyReLU ∧
      (gradSlots_MyReLU i g).map Option.isSome = [true]) ∧
    ((gradSlots_MatrixSum i (scalarT gv)).map List.length = some arity_MatrixSum ∧
      (gradSlots_MatrixSum i (scalarT gv)).map (fun l => l.map Option.isSome) =
        some [true]) ∧
    ((gradSlots_MySub a b alpha go).map List.length = some arity_MySub ∧
      (gradSlots_MySub a b alpha go).map (fun l => l.map Option.isSome) =
        some [true, true, false]) ∧
    ((gradSlots_NonDiffCrossEntropy t p (scalarT gv)).map List.length =
        some arity_NonDiffCrossEntropy ∧
      (gradSlots_NonDiffCrossEntropy t p (scalarT gv)).map
        (fun l => l.map Option.isSome) = some [false, true]) ∧
    ((gradSlots_CustomLoss p t (scalarT gv)).map List.length = some arity_CustomLoss ∧
      (gradSlots_CustomLoss p t (scalarT gv)).map (fun l => l.map Option.isSome) =
        some [true, false]) := by
  refine ⟨⟨rfl, rfl⟩, ?_, ?_, ?_, ?_⟩
  · unfold gradSlots_MatrixSum
    rw [matrixsum_backward_eq, Option.map_some', Option.map_some']
    exact ⟨rfl, rfl⟩
  · unfold gradSlots_MySub
    rw [mysub_backward_eq a b go alpha hag hbg, Option.map_some', Option.map_some']
    exact ⟨rfl, rfl⟩
  · unfold gradSlots_NonDiffCrossEntropy
    rw [(ce_backward_eq t p gv htp).1, Option.map_some', Option.map_some']
    exact ⟨rfl, rfl⟩
  · unfold gradSlots_CustomLoss
    rw [(ce_backward_eq t p gv htp).2, Option.map_some', Option.map_some']
    exact ⟨rfl, rfl⟩

/-- Witness for C3 at 0-dimensional one-element tensors. -/
theorem backward_arity_and_none_slots_witness :
    (gradSlots_MySub (scalarT (1 : ℚ)) (scalarT 1) 1 (scalarT 1)).map List.length =
      some arity_MySub ∧
    (gradSlots_MySub (scalarT (1 : ℚ)) (scalarT 1) 1 (scalarT 1)).map
      (fun l => l.map Option.isSome) = some [true, true, false] ∧
    (gradSlots_NonDiffCrossEntropy (scalarT (1 : ℚ)) (scalarT 1) (scalarT 1)).map
      (fun l => l.map Option.isSome) = some [false, true] := by
  have h := backward_arity_and_none_slots (scalarT 1) (scalarT 1) (scalarT 1)
    (scalarT 1) (scalarT 1) (scalarT 1) (scalarT 1) 1 1 rfl rfl rfl
  exact ⟨h.2.2.1.1, h.2.2.1.2, h.2.2.2.1.2⟩

/-- C9: the backward of the cross-entropy ops divides by the saved, unclipped
y_pred: at y_true = [1], y_pred = [0] — a valid forward input, every entry in
[0, 1], which forward handles finitely because it clips into [eps, 1-eps] before
the log — the divisor entry of backward's division -y_true/y_pred is 0 with a
nonzero y_true there, so the implicit precondition ceBackwardDivOk (every entry
of the saved y_pred nonzero) fails and the division is by zero. -/
theorem ce_backward_divides_by_unclipped_zero :
    (∀ v ∈ (⟨[1], [0]⟩ : Tensor ℚ).data,
      0 ≤ v ∧ v ≤ 1 ∧ epsClip ≤ clipEps v ∧ clipEps v ≤ 1 - epsClip) ∧
    ¬ ceBackwardDivOk (⟨[1], [0]⟩ : Tensor ℚ) ∧
    (⟨[1], [0]⟩ : Tensor ℚ).data.getD 0 0 = 0 ∧
    (⟨[1], [1]⟩ : Tensor ℚ).data.getD 0 0 ≠ 0 := by
  refine ⟨?_, ?_, rfl, ?_⟩
  · intro v hv
    have hv0 : v = 0 := by simpa using hv
    subst hv0
    refine ⟨le_refl 0, by norm_num, ?_, ?_⟩
    · unfold clipEps epsClip
      rw [max_eq_right (by norm_num), min_eq_left (by norm_num)]
    · unfold clipEps epsClip
      rw [max_eq_right (by norm_num), min_eq_left (by norm_num)]
      norm_num
  · intro hok
    have h0 := hok 0 (by norm_num)
    exact h0 rfl
  · norm_num

/-- Witness for C9's universally quantified component at the entry v = 0. -/
theorem ce_backward_divides_by_unclipped_zero_witness :
    0 ≤ (0 : ℚ) ∧ (0 : ℚ) ≤ 1 ∧ epsClip ≤ clipEps (0 : ℚ) ∧
      clipEps (0 : ℚ) ≤ 1 - epsClip :=
  ce_backward_divides_by_unclipped_zero.1 0 (by norm_num)

lemma getD_append_lt {α : Type} (l l2 : List α) (d : α) (r : Nat)
    (hr : r < l.length) : (l ++ l2).getD r d = l.getD r d := by
  simp [List.getD_eq_getElem?_getD, List.getElem?_append_left hr]

lemma getD_append_self {α : Type} (l : List α) (c d : α) :
    (l ++ [c]).getD l.length d = c := by
  simp [List.getD_eq_getElem?_getD, List.getElem?_append_right (le_refl l.length)]

lemma getD_set_ne {α : Type} (l : List α) (i r : Nat) (a d : α) (hne : r ≠ i) :
    (l.set i a).getD r d = l.getD r d := by
  simp [List.getD_eq_getElem?_getD, List.getElem?_set_ne (Ne.symm hne)]

lemma getD_set_self {α : Type} (l : List α) (i : Nat) (a d : α)
    (hi : i < l.length) : (l.set i a).getD i d = a := by
  simp [List.getD_eq_getElem?_getD, List.getElem?_set_self hi]

lemma reluBackwardStep_frame (h : Heap ℚ) (ir gr r : Nat) (hr : r < h.length) :
    heapRead (reluBackwardStep h ir gr).1 r = heapRead h r := by
  unfold reluBackwardStep heapAlloc heapWrite heapRead
  simp only
  rw [getD_set_ne _ _ _ _ _ (by omega), getD_append_lt _ _ _ _ hr]

lemma reluBackwardStep_result (h : Heap ℚ) (ir gr : Nat) (hir : ir < h.length) :
    heapRead (reluBackwardStep h ir gr).1 (reluBackwardStep h ir gr).2 =
      MyReLU_backward (heapRead h ir) (heapRead h gr) := by
  unfold reluBackwardStep heapAlloc heapWrite heapRead
  simp only
  rw [getD_set_self _ _ _ _ (by simp),
    getD_append_lt _ _ _ _ hir, getD_append_self]
  rfl

lemma matrixSumBackwardStep_frame (h : Heap ℚ) (ir gr r : Nat)
    (hr : r < h.length) :
    heapRead (matrixSumBackwardStep h ir gr).1 r = heapRead h r := by
  unfold matrixSumBackwardStep heapAlloc heapRead
  simp only
  rw [getD_append_lt _ _ _ _ (by simp; omega), getD_append_lt _ _ _ _ hr]

/-- C8: backward is pure as seen by the caller: running MyReLU.backward against
the store leaves every pre-existing tensor unchanged (in particular grad_output
and the saved inputs — the zeroing happens on a fresh clone only), its result is
the pure function MyReLU_backward of the values read, and two runs from stores
holding equal values return equal results; MatrixSum.backward only allocates and
also leaves every pre-existing tensor unchanged. -/
theorem relu_backward_pure (h : Heap ℚ) (ir gr : Nat) (hir : ir < h.length)
    (_hgr : gr < h.length) :
    (∀ r, r < h.length → heapRead (reluBackwardStep h ir gr).1 r = heapRead h r) ∧
    heapRead (reluBackwardStep h ir gr).1 (reluBackwardStep h ir gr).2 =
      MyReLU_backward (heapRead h ir) (heapRead h gr) ∧
    (∀ r, r < h.length →
      heapRead (matrixSumBackwardStep h ir gr).1 r = heapRead h r) ∧
    (∀ (h₂ : Heap ℚ) (ir₂ gr₂ : Nat), ir₂ < h₂.length →
      heapRead h₂ ir₂ = heapRead h ir → heapRead h₂ gr₂ = heapRead h gr →
      heapRead (reluBackwardStep h₂ ir₂ gr₂).1 (reluBackwardStep h₂ ir₂ gr₂).2 =
        heapRead (reluBackwardStep h ir gr).1 (reluBackwardStep h ir gr).2) := by
  refine ⟨fun r hr => reluBackwardStep_frame h ir gr r hr,
    reluBackwardStep_result h ir gr hir,
    fun r hr => matrixSumBackwardStep_frame h ir gr r hr,
    ?_⟩
  intro h2 ir2 gr2 hir2 hi hg
  rw [reluBackwardStep_result h2 ir2 gr2 hir2, reluBackwardStep_result h ir gr hir,
    hi, hg]

/-- Witness for C8 on the two-tensor store [1, 2]. -/
theorem relu_backward_pure_witness :
    heapRead (reluBackwardStep [scalarT (1 : ℚ), scalarT 2] 0 1).1 0 =
      heapRead [scalarT (1 : ℚ), scalarT 2] 0 ∧
    heapRead (reluBackwardStep [scalarT (1 : ℚ), scalarT 2] 0 1).1
        (reluBackwardStep [scalarT (1 : ℚ), scalarT 2] 0 1).2 =
      MyReLU_backward (heapRead [scalarT (1 : ℚ), scalarT 2] 0)
        (heapRead [scalarT (1 : ℚ), scalarT 2] 1) := by
  have h := relu_backward_pure [scalarT 1, scalarT 2] 0 1 (by decide) (by decide)
  exact ⟨h.1 0 (by decide), h.2.1⟩

/-- C7: the cross-entropy forwards clip y_pred into [1e-7, 1-1e-7] before taking
the logarithm: every clipped value lies in [eps, 1-eps] and is strictly positive
(so the log argument never reaches the domain boundary, even for entries exactly
0 or 1, and the loss is a well-defined real number); both forwards compute their
loss from the clipped values only; and running the forward against the store
modifies no existing tensor — in particular the caller's y_pred is unchanged. -/
theorem ce_forward_clips_before_log (x : ℝ) (t p : Tensor ℝ) (h : Heap ℝ)
    (predRef trueRef r : Nat) (hr : r < h.length) :
    (epsClip ≤ clipEps x ∧ clipEps x ≤ 1 - epsClip ∧ 0 < clipEps x) ∧
    (NonDiffCrossEntropy_forward t p = scalarT (celossCore t.data p.data (dim0 t)) ∧
      CustomLoss_forward p t = scalarT (celossCore t.data p.data (dim0 t))) ∧
    (celossCore t.data p.data (dim0 t) =
      (List.zipWith (fun a v => -a * Real.log v) t.data (p.data.map clipEps)).sum /
        ((dim0 t : Nat) : ℝ)) ∧
    heapRead (celossForwardStep h predRef trueRef).1 r = heapRead h r := by
  have hlo : epsClip ≤ clipEps x :=
    le_min (le_max_right x epsClip) (by norm_num [epsClip])
  refine ⟨⟨hlo, min_le_right _ _, ?_⟩, ⟨rfl, rfl⟩, ?_, ?_⟩
  · exact lt_of_lt_of_le (by norm_num [epsClip]) hlo
  · unfold celossCore
    rw [List.zipWith_map_right]
  · unfold celossForwardStep heapAlloc heapRead
    simp only
    rw [getD_append_lt _ _ _ _ (by simp; omega), getD_append_lt _ _ _ _ hr]

/-- Witness for C7 at x = 0 on a one-tensor store. -/
theorem ce_forward_clips_before_log_witness :
    (epsClip ≤ clipEps (0 : ℝ) ∧ clipEps (0 : ℝ) ≤ 1 - epsClip ∧
      0 < clipEps (0 : ℝ)) ∧
    heapRead (celossForwardStep [scalarT 0] 0 0).1 0 = heapRead [scalarT 0] 0 := by
  have h := ce_forward_clips_before_log 0 (scalarT 0) (scalarT 0) [scalarT 0] 0 0 0
    (by decide)
  exact ⟨h.1, h.2.2.2⟩

lemma reluScalar_hasDerivAt (x : ℝ) (hx : x ≠ 0) :
    HasDerivAt (fun y : ℝ => reluScalar y) (reluBwdScalar x 1) x := by
  rcases lt_or_gt_of_ne hx with hneg | hpos
  · have h0 : HasDerivAt (fun _ : ℝ => (0 : ℝ)) 0 x := hasDerivAt_const x 0
    have heq : (fun y : ℝ => reluScalar y) =ᶠ[nhds x] (fun _ => (0 : ℝ)) := by
      refine Filter.eventuallyEq_of_mem (Iio_mem_nhds hneg) ?_
      intro y hy
      simp only [Set.mem_Iio] at hy
      exact max_eq_right (le_of_lt hy)
    have hres := h0.congr_of_eventuallyEq heq
    unfold reluBwdScalar
    rw [if_pos hneg]
    exact hres
  · have h1 : HasDerivAt (fun y : ℝ => y) 1 x := hasDerivAt_id' x
    have heq : (fun y : ℝ => reluScalar y) =ᶠ[nhds x] (fun y => y) := by
      refine Filter.eventuallyEq_of_mem (Ioi_mem_nhds hpos) ?_
      intro y hy
      simp only [Set.mem_Ioi] at hy
      exact max_eq_left (le_of_lt hy)
    have hres := h1.congr_of_eventuallyEq heq
    unfold reluBwdScalar
    rw [if_neg (not_lt.mpr (le_of_lt hpos))]
    exact hres

lemma hasDerivAt_sum_set : ∀ (l : List ℝ) (j : Nat) (x : ℝ), j < l.length →
    HasDerivAt (fun y => ((l.set j y).sum : ℝ)) 1 x := by
  intro l
  induction l with
  | nil =>
    intro j x hj
    simp at hj
  | cons a as ih =>
    intro j x hj
    cases j with
    | zero =>
      simp only [List.set_cons_zero, List.sum_cons]
      exact (hasDerivAt_id' x).add_const as.sum
    | succ n =>
      simp only [List.set_cons_succ, List.sum_cons]
      have hn : n < as.length := by simpa using hj
      exact (ih n x hn).const_add a

lemma hasDerivAt_zipWith_sum_set (f : ℝ → ℝ → ℝ) :
    ∀ (t l : List ℝ) (j : Nat) (x d : ℝ), j < t.length → j < l.length →
      HasDerivAt (fun y => f (t.getD j 0) y) d x →
      HasDerivAt (fun y => ((List.zipWith f t (l.set j y)).sum : ℝ)) d x := by
  intro t
  induction t with
  | nil =>
    intro l j x d hj hl hd
    simp at hj
  | cons a as ih =>
    intro l j x d hj hl hd
    cases l with
    | nil => simp at hl
    | cons b bs =>
      cases j with
      | zero =>
        simp only [List.set_cons_zero, List.zipWith_cons_cons, List.sum_cons]
        have hd0 : HasDerivAt (fun y => f a y) d x := by simpa using hd
        exact hd0.add_const _
      | succ n =>
        simp only [List.set_cons_succ, List.zipWith_cons_cons, List.sum_cons]
        have hn : n < as.length := by simpa using hj
        have hnl : n < bs.length := by simpa using hl
        have hd' : HasDerivAt (fun y => f (as.getD n 0) y) d x := by simpa using hd
        exact (ih bs n x d hn hnl hd').const_add _

lemma celoss_term_hasDerivAt (c x : ℝ) (h1 : epsClip < x) (h2 : x < 1 - epsClip) :
    HasDerivAt (fun y : ℝ => -c * Real.log (clipEps y)) (-c / x) x := by
  have hx0 : x ≠ 0 := by
    have hpos : (0 : ℝ) < epsClip := by norm_num [epsClip]
    exact ne_of_gt (lt_trans hpos h1)
  have hm : HasDerivAt (fun y : ℝ => -c * Real.log y) (-c * x⁻¹) x :=
    (Real.hasDerivAt_log hx0).const_mul (-c)
  have heq : (fun y : ℝ => -c * Real.log (clipEps y)) =ᶠ[nhds x]
      (fun y => -c * Real.log y) := by
    refine Filter.eventuallyEq_of_mem (Ioo_mem_nhds h1 h2) ?_
    intro y hy
    have hcl : clipEps y = y := by
      unfold clipEps
      rw [max_eq_left (le_of_lt hy.1), min_eq_left (le_of_lt hy.2)]
    simp only [hcl]
  have hres := hm.congr_of_eventuallyEq heq
  rw [div_eq_mul_inv]
  exact hres

lemma celossCore_hasDerivAt (t l : List ℝ) (n j : Nat) (x : ℝ)
    (hjt : j < t.length) (hjl : j < l.length) (h1 : epsClip < x)
    (h2 : x < 1 - epsClip) :
    HasDerivAt (fun y => celossCore t (l.set j y) n)
      (ceBwdScalar (t.getD j 0) x n) x := by
  have hterm := celoss_term_hasDerivAt (t.getD j 0) x h1 h2
  have hsum := hasDerivAt_zipWith_sum_set
    (fun a b => -a * Real.log (clipEps b)) t l j x
    (-(t.getD j 0) / x) hjt hjl hterm
  have hdiv := hsum.div_const ((n : Nat) : ℝ)
  exact hdiv

/-- C2: the gradient returned by each backward is the true derivative of the
function computed by the matching forward, at every input in the op's valid
domain: MyReLU at x ≠ 0 (the derivative of max(x, 0) is the masked upstream
gradient at 1); MatrixSum has entrywise derivative 1 in each coordinate (backward
returns grad * ones); MySub has entrywise derivatives 1 w.r.t. a and -alpha
w.r.t. b; and the cross-entropy loss, as a function of one y_pred entry strictly
inside the clip interval (eps, 1-eps), has derivative (-y_true/y_pred)/N — the
exact value backward computes. -/
theorem backward_matches_forward_derivative :
    (∀ x : ℝ, x ≠ 0 →
      HasDerivAt (fun y : ℝ => reluScalar y) (reluBwdScalar x 1) x) ∧
    (∀ (l : List ℝ) (j : Nat) (x : ℝ), j < l.length →
      HasDerivAt (fun y => msumCore (l.set j y)) 1 x) ∧
    (∀ (c alpha x : ℝ), HasDerivAt (fun y => subScalar y c alpha) 1 x) ∧
    (∀ (c alpha x : ℝ), HasDerivAt (fun y => subScalar c y alpha) (-alpha) x) ∧
    (∀ (t l : List ℝ) (n j : Nat) (x : ℝ), j < t.length → j < l.length →
      epsClip < x → x < 1 - epsClip →
      HasDerivAt (fun y => celossCore t (l.set j y) n)
        (ceBwdScalar (t.getD j 0) x n) x) := by
  refine ⟨reluScalar_hasDerivAt, ?_, ?_, ?_, ?_⟩
  · intro l j x hj
    exact hasDerivAt_sum_set l j x hj
  · intro c alpha x
    exact (hasDerivAt_id' x).sub_const (alpha * c)
  · intro c alpha x
    have hm : HasDerivAt (fun y : ℝ => alpha * y) (alpha * 1) x :=
      (hasDerivAt_id' x).const_mul alpha
    have hs := hm.const_sub c
    rw [mul_one] at hs
    exact hs
  · intro t l n j x hjt hjl h1 h2
    exact celossCore_hasDerivAt t l n j x hjt hjl h1 h2

/-- Witness for C2 at concrete points: x = 1 for MyReLU, coordinate 0 of [2, 3]
for MatrixSum, a = b = 2, alpha = 3 at x = 0 for MySub, and y_pred entry 1/2 with
y_true = [1, 0], N = 2 for the cross-entropy loss. -/
theorem backward_matches_forward_derivative_witness :
    HasDerivAt (fun y : ℝ => reluScalar y) (reluBwdScalar (1 : ℝ) 1) 1 ∧
    HasDerivAt (fun y => msumCore (([2, 3] : List ℝ).set 0 y)) 1 5 ∧
    HasDerivAt (fun y => subScalar y (2 : ℝ) 3) 1 0 ∧
    HasDerivAt (fun y => subScalar (2 : ℝ) y 3) (-3) 0 ∧
    HasDerivAt (fun y => celossCore [1, 0] (([1/2, 1/2] : List ℝ).set 0 y) 2)
      (ceBwdScalar (([1, 0] : List ℝ).getD 0 0) (1/2) 2) (1/2) := by
  have h := backward_matches_forward_derivative
  exact ⟨h.1 1 (by norm_num), h.2.1 [2, 3] 0 5 (by simp),
    h.2.2.1 2 3 0, h.2.2.2.1 2 3 0,
    h.2.2.2.2 [1, 0] [1/2, 1/2] 2 0 (1/2) (by simp) (by simp)
      (by norm_num [epsClip]) (by norm_num [epsClip])⟩
